import Mathlib

/-!
Verification of the file-editing core of the `mcp-file-edit` MCP server.

Text is modelled at the character level (`List Char`), a file's content as a
single character list; line buffers are `List (List Char)` obtained by
splitting on `'\n'`, exactly as the TypeScript source does with
`content.split('\n')` and re-joins with `lines.join('\n')`.

The embedded operations are translated from `src/index.ts` (the unnamed main
source file) and `src/utils.ts`:
  * `normalizeContent`   — utils.ts, trim + collapse whitespace runs
  * `multireplace`       — tool `multireplace_lines_in_file`
  * `replaceInFile`      — tool `replace_in_file` (regex modelled for literal
                            patterns, which is the fragment used by the claims)
  * `insertIntoFile`     — tool `insert_into_file`
  * `matchesPattern`     — glob matcher inside tool `search_directory`
-/

namespace McpFileEdit

/-! ### Characters and whitespace (JS `\s`, restricted to ASCII whitespace) -/

/-- JS whitespace test used by `trim()` and the `\s` regex class,
restricted to the common ASCII whitespace characters. -/
def isWs (c : Char) : Bool :=
  c = ' ' || c = '\t' || c = '\n' || c = '\r' || c = '\x0b' || c = '\x0c'

/-- Remove leading and trailing whitespace, as JS `String.prototype.trim`. -/
def trimWs (s : List Char) : List Char :=
  ((s.dropWhile isWs).reverse.dropWhile isWs).reverse

/-- Replace every whitespace run by a single space,
as JS `.replace(/\s+/g, ' ')`.  The flag records whether the previous
character belonged to a whitespace run that has already emitted its space. -/
def squeezeWsAux : Bool → List Char → List Char
  | _, [] => []
  | inRun, c :: cs =>
    if isWs c then
      if inRun then squeezeWsAux true cs else ' ' :: squeezeWsAux true cs
    else c :: squeezeWsAux false cs

/-- Collapse every whitespace run to a single space. -/
def squeezeWs (s : List Char) : List Char :=
  squeezeWsAux false s

/-- `normalizeContent` from utils.ts: `content.trim().replace(/\s+/g, ' ')`. -/
def normalizeContent (content : List Char) : List Char :=
  squeezeWs (trimWs content)

/-! ### Splitting a file into lines and joining back (`split('\n')` / `join('\n')`) -/

/-- JS `content.split('\n')`: the resulting list is always nonempty;
`''.split('\n') = ['']`. -/
def splitNl : List Char → List (List Char)
  | [] => [[]]
  | c :: cs =>
    if c = '\n' then [] :: splitNl cs
    else
      match splitNl cs with
      | [] => [[c]]
      | l :: ls => (c :: l) :: ls

/-- JS `lines.join('\n')`. -/
def joinNl : List (List Char) → List Char
  | [] => []
  | [l] => l
  | l :: l' :: ls => l ++ '\n' :: joinNl (l' :: ls)

/-! ### JavaScript `Array.prototype.slice` with signed indices -/

/-- `l.slice(0, e)` for a possibly negative `e` (negative counts from the
end, out-of-range values are clamped). -/
def jsSliceTo (l : List (List Char)) (e : Int) : List (List Char) :=
  l.take (if e < 0 then ((l.length : Int) + e).toNat else e.toNat)

/-- `l.slice(s)` for a possibly negative `s`. -/
def jsSliceFrom (l : List (List Char)) (s : Int) : List (List Char) :=
  l.drop (if s < 0 then ((l.length : Int) + s).toNat else s.toNat)

/-! ### Data model of `multireplace_lines_in_file` -/

/-- One edit request of the batch tool (`edits` array element).  Line
numbers are 1-based and refer to the original file. -/
structure EditReq where
  line_start : Nat
  line_end : Nat
  line_start_contents : List Char
  contents : List Char
deriving DecidableEq, Repr

/-- The reasons a single edit can fail (the payload of the `UserError`
messages thrown inside the per-edit `try`). -/
inductive EditErr where
  | startBeyond (ls L : Nat)
  | endBeyond (le L : Nat)
  | invalidRange
  | contentMismatch (expectedNorm actualNorm : List Char)
  | vanished (ls : Nat)
deriving DecidableEq, Repr

/-- One element of the `results` array. -/
structure EditResult where
  index : Nat
  success : Bool
  line_start : Nat
  line_end : Nat
  shift : Option Int
  error : Option EditErr
deriving DecidableEq, Repr

/-- One entry of the `lineShifts` ledger. -/
structure ShiftRec where
  start : Nat
  stop : Nat
  shift : Int
deriving DecidableEq, Repr

/-- Mutable state of the batch loop: the working copy of the file and the
shift ledger. -/
structure MState where
  workingLines : List (List Char)
  lineShifts : List ShiftRec
deriving DecidableEq, Repr

/-- The comparator passed to `edits.sort(...)`: ascending lexicographic on
`(line_start, line_end)`. -/
def editLE (a b : EditReq) : Prop :=
  a.line_start < b.line_start ∨
    (a.line_start = b.line_start ∧ a.line_end ≤ b.line_end)

instance : DecidableRel editLE := fun a b => by
  unfold editLE; infer_instance

instance : IsTotal EditReq editLE := ⟨by intro a b; unfold editLE; omega⟩

instance : IsTrans EditReq editLE := ⟨by intro a b c; unfold editLE; omega⟩

/-- `edits.sort(comparator)`: JS `Array.prototype.sort` is stable, and a
stable sort for a total preorder is unique, so insertion sort models it
exactly. -/
def sortEdits (edits : List EditReq) : List EditReq :=
  List.insertionSort editLE edits

/-- The overlap walk: `previousEnd` starts at `-1`; the walk stops with
`some line_start` at the first edit whose `line_start ≤ previousEnd`. -/
def overlapCheckGo : Int → List EditReq → Option Nat
  | _, [] => none
  | prev, e :: rest =>
    if (e.line_start : Int) ≤ prev then some e.line_start
    else overlapCheckGo (e.line_end : Int) rest

/-- Overlap check over the sorted edit list. -/
def overlapCheck (edits : List EditReq) : Option Nat :=
  overlapCheckGo (-1) edits

/-- Accumulated adjustment for an edit starting at original line `ls`:
the sum of the shifts of all ledger entries with `start ≤ ls`. -/
def translate (shifts : List ShiftRec) (ls : Nat) : Int :=
  shifts.foldl (fun acc s => if s.start ≤ ls then acc + s.shift else acc) 0

/-- The body of the per-edit `try` block: validates the edit, translates
its coordinates and either applies it to the working copy (returning a
success result and the new state) or returns a failure result with the
state unchanged. -/
def stepEdit (originalLines : List (List Char)) (st : MState) (e : EditReq) :
    (Bool × Option Int × Option EditErr) × MState :=
  if e.line_start > originalLines.length then
    ((false, none, some (.startBeyond e.line_start originalLines.length)), st)
  else if e.line_end > originalLines.length then
    ((false, none, some (.endBeyond e.line_end originalLines.length)), st)
  else if e.line_start > e.line_end then
    ((false, none, some .invalidRange), st)
  else
    let originalLineContent := originalLines.getD (e.line_start - 1) []
    if originalLineContent ≠ e.line_start_contents then
      ((false, none,
        some (.contentMismatch (normalizeContent e.line_start_contents)
          (normalizeContent originalLineContent))), st)
    else
      let adj := translate st.lineShifts e.line_start
      let currentStartIndex : Int := (e.line_start : Int) - 1 + adj
      let currentEndIndex : Int := (e.line_end : Int) - 1 + adj
      if currentStartIndex ≥ (st.workingLines.length : Int) then
        ((false, none, some (.vanished e.line_start)), st)
      else
        let currentEndIndex :=
          if currentEndIndex ≥ (st.workingLines.length : Int) then
            (st.workingLines.length : Int) - 1
          else currentEndIndex
        let shift : Int :=
          ((splitNl e.contents).length : Int) -
            ((e.line_end : Int) - (e.line_start : Int) + 1)
        let newLines :=
          jsSliceTo st.workingLines currentStartIndex ++
            splitNl e.contents ++
            jsSliceFrom st.workingLines (currentEndIndex + 1)
        ((true, some shift, none),
          ⟨newLines,
            st.lineShifts ++ [⟨e.line_start, e.line_end, shift⟩]⟩)

/-- The `for (let i = 0; i < edits.length; i++)` loop: processes the sorted
edits in order, collecting one result per edit and threading the state. -/
def runEdits (originalLines : List (List Char)) (i : Nat) :
    List EditReq → MState → List EditResult × MState
  | [], st => ([], st)
  | e :: rest, st =>
    let (r, st') := stepEdit originalLines st e
    let (rs, st'') := runEdits originalLines (i + 1) rest st'
    (⟨i, r.1, e.line_start, e.line_end, r.2.1, r.2.2⟩ :: rs, st'')

/-- Result of one `multireplace_lines_in_file` call: either the whole-batch
overlap rejection (the thrown `UserError`, re-thrown by the outer catch, so
no write happens), or the per-edit results together with the content passed
to the single `writeFileSync`. -/
inductive MultiResult where
  | overlap (line : Nat)
  | done (results : List EditResult) (finalContent : List Char)
deriving DecidableEq, Repr

/-- `multireplace_lines_in_file` on a file whose current content is
`content`. -/
def multireplace (content : List Char) (edits : List EditReq) : MultiResult :=
  let originalLines := splitNl content
  let sorted := sortEdits edits
  match overlapCheck sorted with
  | some n => .overlap n
  | none =>
    let (results, st) := runEdits originalLines 0 sorted ⟨originalLines, []⟩
    .done results (joinNl st.workingLines)

/-- Number of `writeFileSync` calls the tool performs. -/
def multiWrites : MultiResult → Nat
  | .overlap _ => 0
  | .done _ _ => 1

/-- The per-edit results of a call (empty for the overlap rejection). -/
def resultsOf : MultiResult → List EditResult
  | .overlap _ => []
  | .done rs _ => rs

/-- The content a call writes, if it writes at all. -/
def writtenOf : MultiResult → Option (List Char)
  | .overlap _ => none
  | .done _ f => some f

/-- Everything a per-edit outcome reports except its ordinal `index`: used
to compare the outcomes of two batches edit by edit. -/
def outcomeCore (r : EditResult) :
    Bool × Nat × Nat × Option Int × Option EditErr :=
  (r.success, r.line_start, r.line_end, r.shift, r.error)

/-- The line shift one edit causes: number of replacement lines minus the
length of the replaced range. -/
def shiftOf (e : EditReq) : Int :=
  ((splitNl e.contents).length : Int) -
    ((e.line_end : Int) - (e.line_start : Int) + 1)

/-- Sum of the shifts of a batch. -/
def shiftSum (edits : List EditReq) : Int :=
  (edits.map shiftOf).sum

/-- Sum of the shifts of the edits lying entirely before the 0-indexed
original line `j` (that is, with `line_end ≤ j`, i.e. strictly before the
1-based line `j + 1`). -/
def precedingShift (edits : List EditReq) (j : Nat) : Int :=
  ((edits.filter (fun e => e.line_end ≤ j)).map shiftOf).sum

/-- Total shift recorded in a ledger. -/
def sumShifts (ledg : List ShiftRec) : Int :=
  (ledg.map (fun rec => rec.shift)).sum

/-- Closed form of the final buffer produced by applying, in ascending
order, a sorted list of pairwise separated edits to the part of `orig`
from 0-indexed position `base` on: untouched gap, then replacement lines,
then the rest. -/
def interleaveFrom (orig : List (List Char)) : Nat → List EditReq → List (List Char)
  | base, [] => orig.drop base
  | base, e :: es =>
    (orig.drop base).take (e.line_start - 1 - base) ++ splitNl e.contents ++
      interleaveFrom orig e.line_end es

/-! ### `replace_in_file` (regex replacement, modelled for literal patterns)

The tool compiles `regex_source` with flag `g`, counts the matches with
`content.match(regex)` and substitutes with `content.replace(regex, target)`.
The regex engine is modelled for literal (metacharacter-free) patterns: a
global literal pattern matches its leftmost non-overlapping occurrences.
The fuel argument only drives structural recursion; the public wrappers
instantiate it with the content length, which never runs out. -/

/-- Count of leftmost non-overlapping occurrences of a nonempty literal
pattern. -/
def countFuel (pat : List Char) : Nat → List Char → Nat
  | _, [] => 0
  | 0, _ => 0
  | fuel + 1, c :: rest =>
    if pat ≠ [] ∧ pat.isPrefixOf (c :: rest) then
      1 + countFuel pat fuel ((c :: rest).drop pat.length)
    else countFuel pat fuel rest

/-- Global replacement of the leftmost non-overlapping occurrences of a
nonempty literal pattern. -/
def replaceFuel (pat target : List Char) : Nat → List Char → List Char
  | _, [] => []
  | 0, s => s
  | fuel + 1, c :: rest =>
    if pat ≠ [] ∧ pat.isPrefixOf (c :: rest) then
      target ++ replaceFuel pat target fuel ((c :: rest).drop pat.length)
    else c :: replaceFuel pat target fuel rest

/-- `content.match(new RegExp(pat, 'g')).length` for a literal pattern
(`0` standing for the `null` result).  An empty pattern matches once at
every position, as the empty regex does in JS. -/
def countOcc (pat content : List Char) : Nat :=
  if pat = [] then content.length + 1
  else countFuel pat content.length content

/-- `content.replace(new RegExp(pat, 'g'), target)` for a literal
pattern. -/
def replaceG (pat target content : List Char) : List Char :=
  if pat = [] then target ++ (content.map (fun c => c :: target)).flatten
  else replaceFuel pat target content.length content

/-- The two `UserError`s of `replace_in_file`. -/
inductive RepErr where
  | noMatch
  | multiMatch (n : Nat)
deriving DecidableEq, Repr

/-- `replace_in_file`: on success the returned pair is the content passed
to the single `writeFileSync` and the occurrence count reported in the
message; an error means no write happened. -/
def replaceInFile (content pat target : List Char) (multiple : Bool) :
    Except RepErr (List Char × Nat) :=
  let n := countOcc pat content
  if n = 0 then .error .noMatch
  else if ¬ multiple ∧ n > 1 then .error (.multiMatch n)
  else .ok (replaceG pat target content, n)

/-! ### `insert_into_file` -/

/-- The `UserError`s of `verifyLineContent` (utils.ts). -/
inductive InsErr where
  | lineMissing (n L : Nat)
  | mismatch (expectedNorm actualNorm : List Char)
deriving DecidableEq, Repr

/-- Success test for the insert model. -/
def insOk : Except InsErr (List Char) → Bool
  | .ok _ => true
  | .error _ => false

/-- `insert_into_file`: `line_number = 0` appends `contents` as one pushed
element with no verification; otherwise `verifyLineContent` checks the
normalized content of the 1-based target line (the `lineNumber < 1` branch
of utils.ts is unreachable here since `line_number ≠ 0`), then the content
is spliced in before or after that line.  The payload of `.ok` is the
content passed to `writeFileSync`. -/
def insertIntoFile (content : List Char) (line_number : Nat)
    (line_contents : List Char) (afterPos : Bool) (contents : List Char) :
    Except InsErr (List Char) :=
  let lines := splitNl content
  if line_number = 0 then .ok (joinNl (lines ++ [contents]))
  else if line_number > lines.length then
    .error (.lineMissing line_number lines.length)
  else
    let actual := lines.getD (line_number - 1) []
    if normalizeContent actual ≠ normalizeContent line_contents then
      .error (.mismatch (normalizeContent line_contents)
        (normalizeContent actual))
    else
      let idx := if afterPos then line_number else line_number - 1
      .ok (joinNl (lines.take idx ++ contents :: lines.drop idx))

/-! ### The glob matcher of `search_directory` -/

/-- Regex metacharacters whose translation the model leaves undefined:
`matchesPattern` does not escape them, so they reach `new RegExp` with
their regex meaning.  `*`, `?` and `.` are translated below. -/
def isRegexSpecial (c : Char) : Bool :=
  c = '(' || c = ')' || c = '[' || c = ']' || c = '\x7b' || c = '\x7d' ||
    c = '+' || c = '|' || c = '^' || c = '$' || c = '\\'

/-- Tokens of the regex fragment produced by the translation
`pattern.replace(/\*/g, '.*').replace(/\?/g, '.')`. -/
inductive RTok where
  | lit (c : Char)
  | dot
  | starDot
deriving DecidableEq, Repr

/-- Translate one pattern character to a regex token: `*` becomes `.*`,
`?` becomes `.`, a literal `.` keeps its regex meaning (any character), and
other regex metacharacters are outside the modelled fragment. -/
def translateGlob : List Char → Option (List RTok)
  | [] => some []
  | c :: cs =>
    if isRegexSpecial c then none
    else
      (translateGlob cs).map (fun ts =>
        (if c = '*' then .starDot else if c = '?' ∨ c = '.' then .dot
         else .lit c) :: ts)

/-- The JS regex line terminators, which `.` never matches when the `s`
(dotAll) flag is off: LF, CR, U+2028 and U+2029. -/
def isLineTerm (c : Char) : Bool :=
  c = '\n' || c = '\r' || c = '\u2028' || c = '\u2029'

/-- Anchored matching of the regex fragment (`new RegExp('^' + p + '$').test`):
`.` matches exactly one character that is not a line terminator, `.*` any
run of such characters. -/
def rmatch : List RTok → List Char → Bool
  | [], s => s.isEmpty
  | .lit _ :: _, [] => false
  | .lit c :: ts, x :: s => (c = x) && rmatch ts s
  | .dot :: _, [] => false
  | .dot :: ts, x :: s => (!isLineTerm x) && rmatch ts s
  | .starDot :: ts, s =>
    (List.range (s.length + 1)).any (fun k =>
      (s.take k).all (fun c => !isLineTerm c) && rmatch ts (s.drop k))

/-- `matchesPattern(filename, pattern)` from `search_directory`: an absent
or empty pattern accepts everything (`if (!pattern) return true`); the
result is `none` when the pattern falls outside the modelled regex
fragment. -/
def matchesPattern (filename : List Char) (pattern : Option (List Char)) :
    Option Bool :=
  match pattern with
  | none => some true
  | some p =>
    if p = [] then some true
    else (translateGlob p).map (fun ts => rmatch ts filename)

/-- The documented glob contract the specification states for `matchGlob`:
`*` matches any run of characters, `?` exactly one character, every other
character matches only itself, anchored against the whole name.  This
definition follows the specification's words and exists to be compared with
the translation-based matcher above. -/
def matchGlobSpec : List Char → List Char → Bool
  | [], s => s.isEmpty
  | c :: p, s =>
    if c = '*' then
      (List.range (s.length + 1)).any (fun k => matchGlobSpec p (s.drop k))
    else
      match s with
      | [] => false
      | x :: s' => (if c = '?' then true else c = x) && matchGlobSpec p s'

/-! ## Basic lemmas about the text model -/

theorem splitNl_ne_nil (s : List Char) : splitNl s ≠ [] := by
  cases s with
  | nil => simp [splitNl]
  | cons c cs =>
    simp only [splitNl]
    split
    · simp
    · cases splitNl cs <;> simp

/-- Round trip: splitting on newlines and joining with newlines is the
identity on file contents. -/
theorem joinNl_splitNl (s : List Char) : joinNl (splitNl s) = s := by
  induction s with
  | nil => rfl
  | cons c cs ih =>
    simp only [splitNl]
    split
    · rename_i hc
      subst hc
      rcases h : splitNl cs with _ | ⟨l, ls⟩
      · exact absurd h (splitNl_ne_nil cs)
      · rw [h] at ih
        simp [joinNl, ih]
    · rcases h : splitNl cs with _ | ⟨l, ls⟩
      · exact absurd h (splitNl_ne_nil cs)
      · rw [h] at ih
        cases ls with
        | nil => simp_all [joinNl]
        | cons l' ls' => simp_all [joinNl]

example : splitNl "a\nb\n".toList = [['a'], ['b'], []] := by decide
example : normalizeContent "  a   b ".toList = "a b".toList := by decide

/-- Joining after appending one more line appends a separator and the
line. -/
theorem joinNl_append_singleton (ls : List (List Char)) (x : List Char)
    (h : ls ≠ []) : joinNl (ls ++ [x]) = joinNl ls ++ '\n' :: x := by
  induction ls with
  | nil => exact absurd rfl h
  | cons l ls ih =>
    cases ls with
    | nil => simp [joinNl]
    | cons l' ls' =>
      have := ih (by simp)
      simp only [List.cons_append] at this ⊢
      simp [joinNl, this]

/-! ## Lemmas about the batch pipeline -/

/-- A failing edit leaves the working buffer and the shift ledger
untouched. -/
theorem stepEdit_fail_state (orig : List (List Char)) (st : MState)
    (e : EditReq) (h : (stepEdit orig st e).1.1 = false) :
    (stepEdit orig st e).2 = st := by
  unfold stepEdit at h ⊢
  simp only [] at h ⊢
  split_ifs at h ⊢ <;> simp_all

/-- A successful edit appends exactly one record to the ledger. -/
theorem stepEdit_success_ledger (orig : List (List Char)) (st : MState)
    (e : EditReq) (h : (stepEdit orig st e).1.1 = true) :
    (stepEdit orig st e).2.lineShifts =
      st.lineShifts ++
        [⟨e.line_start, e.line_end,
          ((splitNl e.contents).length : Int) -
            ((e.line_end : Int) - (e.line_start : Int) + 1)⟩] := by
  unfold stepEdit at h ⊢
  simp only [] at h ⊢
  split_ifs at h ⊢ <;> simp_all

theorem runEdits_length (orig : List (List Char)) :
    ∀ (es : List EditReq) (i : Nat) (st : MState),
      (runEdits orig i es st).1.length = es.length := by
  intro es
  induction es with
  | nil => intro i st; rfl
  | cons e rest ih => intro i st; simp [runEdits, ih]

/-- At every position the produced result carries the loop index and the
edit's own line numbers. -/
theorem runEdits_fields (orig : List (List Char)) :
    ∀ (es : List EditReq) (i : Nat) (st : MState) (j : Nat),
      ((runEdits orig i es st).1.get? j).map
          (fun r => (r.index, r.line_start, r.line_end)) =
        (es.get? j).map (fun e => (i + j, e.line_start, e.line_end)) := by
  intro es
  induction es with
  | nil => intro i st j; rfl
  | cons e rest ih =>
    intro i st j
    cases j with
    | zero => simp [runEdits]
    | succ j' =>
      simp only [runEdits, List.get?_cons_succ]
      rw [ih]
      cases rest.get? j' <;> simp
      omega

/-- If every result of a run is a failure, the run does not move the
state. -/
theorem runEdits_allFail_state (orig : List (List Char)) :
    ∀ (es : List EditReq) (i : Nat) (st : MState),
      (∀ r ∈ (runEdits orig i es st).1, r.success = false) →
        (runEdits orig i es st).2 = st := by
  intro es
  induction es with
  | nil => intro i st _; rfl
  | cons e rest ih =>
    intro i st hall
    simp only [runEdits] at hall ⊢
    have he : (stepEdit orig st e).1.1 = false := by
      have := hall ⟨i, (stepEdit orig st e).1.1, e.line_start, e.line_end,
        (stepEdit orig st e).1.2.1, (stepEdit orig st e).1.2.2⟩ (by simp)
      simpa using this
    rw [stepEdit_fail_state orig st e he] at hall ⊢
    exact ih (i + 1) st (fun r hr => hall r (by simp [hr]))


/-- Splitting a run at a list append. -/
theorem runEdits_append (orig : List (List Char)) :
    ∀ (xs ys : List EditReq) (i : Nat) (st : MState),
      runEdits orig i (xs ++ ys) st =
        ((runEdits orig i xs st).1 ++
            (runEdits orig (i + xs.length) ys (runEdits orig i xs st).2).1,
          (runEdits orig (i + xs.length) ys (runEdits orig i xs st).2).2) := by
  intro xs
  induction xs with
  | nil => intro ys i st; simp [runEdits]
  | cons x xs ih =>
    intro ys i st
    simp only [List.cons_append, runEdits, List.append_eq]
    rw [ih]
    simp only [List.length_cons]
    have harith : i + 1 + xs.length = i + (xs.length + 1) := by omega
    rw [harith]

/-! ## Lemmas about the overlap check -/

/-- The separation relation the overlap walk enforces between consecutive
sorted edits. -/
def sepRel (x y : EditReq) : Prop := x.line_end < y.line_start

instance : DecidableRel sepRel := fun a b => by unfold sepRel; infer_instance

theorem chain'_of_overlapCheckGo_none :
    ∀ (l : List EditReq) (prev : Int),
      overlapCheckGo prev l = none → l.Chain' sepRel := by
  intro l
  induction l with
  | nil => intro prev _; simp
  | cons e rest ih =>
    intro prev h
    simp only [overlapCheckGo] at h
    split_ifs at h with hc
    have hrest := ih (e.line_end : Int) h
    cases rest with
    | nil => simp
    | cons f rest' =>
      refine List.Chain'.cons ?_ hrest
      have : ¬ ((f.line_start : Int) ≤ (e.line_end : Int)) := by
        intro hle
        simp only [overlapCheckGo] at h
        split_ifs at h
      unfold sepRel
      exact_mod_cast not_le.mp this

theorem overlapCheckGo_none_of_chain' :
    ∀ (l : List EditReq) (prev : Int),
      l.Chain' sepRel → (∀ h ∈ l.head?, prev < (h.line_start : Int)) →
        overlapCheckGo prev l = none := by
  intro l
  induction l with
  | nil => intro prev _ _; rfl
  | cons e rest ih =>
    intro prev hchain hhead
    have he : prev < (e.line_start : Int) := hhead e (by simp)
    simp only [overlapCheckGo, if_neg (not_le.mpr he)]
    refine ih (e.line_end : Int) hchain.tail ?_
    intro f hf
    cases rest with
    | nil => simp at hf
    | cons g rest' =>
      simp only [List.head?_cons, Option.mem_def, Option.some.injEq] at hf
      subst hf
      exact_mod_cast (List.chain'_cons.mp hchain).1

/-- In a list sorted by the comparator, consecutive separation upgrades to
pairwise separation. -/
theorem pairwise_sepRel (l : List EditReq) (hs : List.Sorted editLE l)
    (hc : l.Chain' sepRel) : l.Pairwise sepRel := by
  induction l with
  | nil => simp
  | cons e rest ih =>
    have hs' := hs.tail
    have hc' := hc.tail
    refine List.pairwise_cons.mpr ⟨?_, ih hs' hc'⟩
    intro z hz
    cases rest with
    | nil => simp at hz
    | cons f rest' =>
      have hef : sepRel e f := (List.chain'_cons.mp hc).1
      rcases List.mem_cons.mp hz with hz | hz
      · subst hz; exact hef
      · have hfz : editLE f z := (List.pairwise_cons.mp hs').1 z hz
        unfold sepRel at hef ⊢
        unfold editLE at hfz
        omega

/-- A list permuted with a two-element list is one of its two orderings. -/
theorem perm_pair_eq {α : Type} {l : List α} {a b : α}
    (h : l.Perm [a, b]) : l = [a, b] ∨ l = [b, a] := by
  have hlen := h.length_eq
  match l, hlen with
  | [x, y], _ =>
    have hx : x ∈ [a, b] := h.mem_iff.mp (by simp)
    rcases List.mem_pair.mp hx with hx | hx
    · subst hx
      have : [y].Perm [b] := (List.perm_cons x).mp h
      left
      simp [List.perm_singleton.mp this]
    · subst hx
      have h2 : [x, y].Perm [x, a] := h.trans (List.Perm.swap x a [])
      have : [y].Perm [a] := (List.perm_cons x).mp h2
      right
      simp [List.perm_singleton.mp this]

/-! ## Claim C1 -/

/-- C1: the claim states that outcomes are returned at the ordinal index at
which the caller submitted each edit.  Counterexample: submitting the edit
for lines 3–3 first and the edit for lines 1–1 second, the outcome at
position 0 (and the first report line) is the one for lines 1–1 with
`index = 0` — the internal ascending processing order, not the submission
order. -/
theorem C1_counterexample :
    (resultsOf (multireplace "a\nb\nc".toList
        [⟨3, 3, "c".toList, "C".toList⟩, ⟨1, 1, "a".toList, "A".toList⟩])).map
        (fun r => (r.index, r.line_start, r.line_end)) = [(0, 1, 1), (1, 3, 3)] := by
  decide

/-- C1 (amended): every batch call returns exactly one outcome per
submitted edit, but positioned at the edit's index in the internal
ascending `(line_start, line_end)` processing order, with `index` equal to
that position; the report lines follow the same order. -/
theorem C1_amended_sorted_report (content : List Char) (edits : List EditReq)
    (rs : List EditResult) (f : List Char) (j : Nat)
    (h : multireplace content edits = .done rs f) :
    rs.length = edits.length ∧
      (rs.get? j).map (fun r => (r.index, r.line_start, r.line_end)) =
        ((sortEdits edits).get? j).map (fun e => (j, e.line_start, e.line_end)) := by
  unfold multireplace at h
  simp only [] at h
  rcases hoc : overlapCheck (sortEdits edits) with _ | n
  · rw [hoc] at h
    simp only [MultiResult.done.injEq] at h
    obtain ⟨hrs, hf⟩ := h
    subst hrs
    constructor
    · rw [runEdits_length, sortEdits, List.length_insertionSort]
    · have := runEdits_fields (splitNl content) (sortEdits edits) 0
        ⟨splitNl content, []⟩ j
      simpa using this
  · rw [hoc] at h
    exact absurd h (by simp)

theorem C1_amended_sorted_report_witness :
    ([(⟨0, true, 1, 1, some 0, none⟩ : EditResult)]).length =
        [(⟨1, 1, "a".toList, "B".toList⟩ : EditReq)].length ∧
      (([(⟨0, true, 1, 1, some 0, none⟩ : EditResult)]).get? 0).map
          (fun r => (r.index, r.line_start, r.line_end)) =
        ((sortEdits [⟨1, 1, "a".toList, "B".toList⟩]).get? 0).map
          (fun e => (0, e.line_start, e.line_end)) :=
  C1_amended_sorted_report "a".toList [⟨1, 1, "a".toList, "B".toList⟩]
    [⟨0, true, 1, 1, some 0, none⟩] "B".toList 0 (by decide)

/-! ## Claim C2 -/

/-- C2: the claim states the pre-check succeeds iff the normalized original
line equals the normalized expected text.  The code compares the raw
strings: with original line `"a  b"` and expected `"a b"` the normalized
forms agree (the failure outcome even carries two identical normalized
strings), yet the edit fails. -/
theorem C2_raw_comparison_not_normalized :
    multireplace "a  b".toList [⟨1, 1, "a b".toList, "X".toList⟩] =
      .done [⟨0, false, 1, 1, none,
        some (.contentMismatch ("a b".toList) ("a b".toList))⟩] "a  b".toList ∧
      normalizeContent "a  b".toList = normalizeContent "a b".toList := by
  decide

/-! ## Claim C3 -/

/-- C3: the claim states that any batch containing edits `a`, `b` with
`a.line_start ≤ b.line_start ≤ a.line_end` fails whole-batch with an
overlap error and performs no write.  Counterexample: `a = (5,10)` and
`b = (5,3)` (an inverted range) satisfy `5 ≤ 5 ≤ 10`, yet the sorted walk
places `b` first, records `previousEnd = 3`, accepts `a`, and the call
proceeds to apply `a` and write a changed file. -/
theorem C3_counterexample :
    ((5 : Nat) ≤ 5 ∧ (5 : Nat) ≤ 10) ∧
      multiWrites (multireplace
        "l1\nl2\nl3\nl4\nl5\nl6\nl7\nl8\nl9\nl10\nl11\nl12".toList
        [⟨5, 10, "l5".toList, "X".toList⟩, ⟨5, 3, "zz".toList, "Y".toList⟩]) = 1 ∧
      writtenOf (multireplace
        "l1\nl2\nl3\nl4\nl5\nl6\nl7\nl8\nl9\nl10\nl11\nl12".toList
        [⟨5, 10, "l5".toList, "X".toList⟩, ⟨5, 3, "zz".toList, "Y".toList⟩]) ≠
        some "l1\nl2\nl3\nl4\nl5\nl6\nl7\nl8\nl9\nl10\nl11\nl12".toList := by
  decide

/-- C3 (amended): for every batch containing two edits `a`, `b` that are
well-formed ranges (`line_start ≤ line_end`) with
`a.line_start ≤ b.line_start ≤ a.line_end`, the call fails as a whole with
an OverlappingRanges error naming a line, and no write is performed, so the
file content is byte-identical to its pre-call state. -/
theorem C3_amended_overlap_rejection (content : List Char)
    (edits : List EditReq) (a b : EditReq)
    (hab : List.Subperm [a, b] edits)
    (hb : b.line_start ≤ b.line_end)
    (h1 : a.line_start ≤ b.line_start) (h2 : b.line_start ≤ a.line_end) :
    ∃ n, multireplace content edits = .overlap n ∧
      multiWrites (multireplace content edits) = 0 ∧
      writtenOf (multireplace content edits) = none := by
  have hsorted : List.Sorted editLE (sortEdits edits) :=
    List.sorted_insertionSort editLE edits
  have hperm : (sortEdits edits).Perm edits :=
    List.perm_insertionSort editLE edits
  have hsub : List.Subperm [a, b] (sortEdits edits) :=
    hab.trans hperm.symm.subperm
  rcases hoc : overlapCheck (sortEdits edits) with _ | n
  · exfalso
    have hchain : (sortEdits edits).Chain' sepRel :=
      chain'_of_overlapCheckGo_none _ _ hoc
    have hpw : (sortEdits edits).Pairwise sepRel :=
      pairwise_sepRel _ hsorted hchain
    obtain ⟨l, hl1, hl2⟩ := hsub
    have hpl : l.Pairwise sepRel := hpw.sublist hl2
    rcases perm_pair_eq hl1 with h | h <;> subst h
    · have hs : sepRel a b := (List.pairwise_cons.mp hpl).1 b (by simp)
      unfold sepRel at hs
      omega
    · have hs : sepRel b a := (List.pairwise_cons.mp hpl).1 a (by simp)
      unfold sepRel at hs
      omega
  · have hm : multireplace content edits = .overlap n := by
      unfold multireplace
      simp only []
      rw [hoc]
    exact ⟨n, hm, by rw [hm]; rfl, by rw [hm]; rfl⟩

theorem C3_amended_overlap_rejection_witness :
    ∃ n, multireplace "a\nb\nc\nd".toList
        [⟨2, 4, "b".toList, "X".toList⟩, ⟨3, 3, "c".toList, "Y".toList⟩] =
        .overlap n ∧
      multiWrites (multireplace "a\nb\nc\nd".toList
        [⟨2, 4, "b".toList, "X".toList⟩, ⟨3, 3, "c".toList, "Y".toList⟩]) = 0 ∧
      writtenOf (multireplace "a\nb\nc\nd".toList
        [⟨2, 4, "b".toList, "X".toList⟩, ⟨3, 3, "c".toList, "Y".toList⟩]) = none :=
  C3_amended_overlap_rejection _ _ _ _ (List.Subperm.refl _) (by decide)
    (by decide) (by decide)

/-! ## Claim C7 -/

/-- C7: in any batch call with no overlap error in which zero edits succeed
(including the empty batch), exactly one write still occurs and the
committed content is byte-identical to the original file content. -/
theorem C7_zero_success_roundtrip (content : List Char) (edits : List EditReq)
    (rs : List EditResult) (f : List Char)
    (h : multireplace content edits = .done rs f)
    (hfail : ∀ r ∈ rs, r.success = false) :
    f = content ∧ multiWrites (multireplace content edits) = 1 := by
  refine ⟨?_, by rw [h]; rfl⟩
  unfold multireplace at h
  simp only [] at h
  rcases hoc : overlapCheck (sortEdits edits) with _ | n
  · rw [hoc] at h
    simp only [MultiResult.done.injEq] at h
    obtain ⟨hrs, hf⟩ := h
    have hstate :=
      runEdits_allFail_state (splitNl content) (sortEdits edits) 0
        ⟨splitNl content, []⟩ (by rw [hrs]; exact hfail)
    rw [← hf, hstate]
    exact joinNl_splitNl content
  · rw [hoc] at h
    exact absurd h (by simp)

theorem C7_zero_success_roundtrip_witness :
    "x\ny".toList = "x\ny".toList ∧
      multiWrites (multireplace "x\ny".toList []) = 1 :=
  C7_zero_success_roundtrip "x\ny".toList [] [] "x\ny".toList (by decide)
    (by decide)

/-! ## Claim C10 -/

/-- C10: `insert_into_file` with `line_number = 0` skips content
verification entirely — for every `line_contents` it succeeds and appends
`contents` after the last line — while `line_number ≥ 1` succeeds exactly
when the target line exists and its normalized content matches the
normalized `line_contents`. -/
theorem C10_insert_zero_skips_verification (content : List Char) (ln : Nat)
    (lc : List Char) (aq : Bool) (cts : List Char) :
    (insertIntoFile content 0 lc aq cts = .ok (content ++ '\n' :: cts)) ∧
    (1 ≤ ln →
      (insOk (insertIntoFile content ln lc aq cts) = true ↔
        (ln ≤ (splitNl content).length ∧
          normalizeContent ((splitNl content).getD (ln - 1) []) =
            normalizeContent lc))) := by
  constructor
  · unfold insertIntoFile
    rw [if_pos rfl]
    rw [joinNl_append_singleton _ _ (splitNl_ne_nil content),
      joinNl_splitNl]
  · intro h1
    unfold insertIntoFile
    simp only []
    rw [if_neg (by omega)]
    split_ifs with hlen hne haq
    · refine ⟨fun h => ?_, fun h => absurd h.1 (by omega)⟩
      simp [insOk] at h
    · refine ⟨fun h => ?_, fun h => absurd h.2 hne⟩
      simp [insOk] at h
    · exact ⟨fun _ => ⟨by omega, not_not.mp hne⟩, fun _ => by simp [insOk]⟩
    · exact ⟨fun _ => ⟨by omega, not_not.mp hne⟩, fun _ => by simp [insOk]⟩

theorem C10_insert_zero_skips_verification_witness :
    (insertIntoFile "a\nb".toList 0 "zzz".toList true "N".toList =
      .ok ("a\nb".toList ++ '\n' :: "N".toList)) ∧
    (1 ≤ 2 →
      (insOk (insertIntoFile "a\nb".toList 2 " b ".toList true "N".toList) = true ↔
        (2 ≤ (splitNl "a\nb".toList).length ∧
          normalizeContent ((splitNl "a\nb".toList).getD (2 - 1) []) =
            normalizeContent " b ".toList))) :=
  ⟨(C10_insert_zero_skips_verification "a\nb".toList 2 "zzz".toList true
      "N".toList).1,
    (C10_insert_zero_skips_verification "a\nb".toList 2 " b ".toList true
      "N".toList).2⟩

/-! ## Claim C6 -/

/-- C6: for an edit that has passed the original-bounds and content checks,
the code translates its 0-indexed bounds by the accumulated shifts of prior
applied edits with `start ≤ line_start`; if the translated start is at or
past the working buffer length the edit fails with a "no longer exists"
error and the state is unchanged, while a translated end past the buffer is
clamped to the last valid index and the edit is applied. -/
theorem C6_vanish_or_clamp (orig : List (List Char)) (st : MState)
    (e : EditReq)
    (h2 : e.line_start ≤ orig.length) (h3 : e.line_end ≤ orig.length)
    (h4 : e.line_start ≤ e.line_end)
    (h5 : orig.getD (e.line_start - 1) [] = e.line_start_contents) :
    ((st.workingLines.length : Int) ≤
        (e.line_start : Int) - 1 + translate st.lineShifts e.line_start →
      stepEdit orig st e = ((false, none, some (.vanished e.line_start)), st)) ∧
    ((e.line_start : Int) - 1 + translate st.lineShifts e.line_start <
        (st.workingLines.length : Int) →
      (stepEdit orig st e).1.1 = true ∧
      (stepEdit orig st e).2.workingLines =
        jsSliceTo st.workingLines
            ((e.line_start : Int) - 1 + translate st.lineShifts e.line_start) ++
          splitNl e.contents ++
          jsSliceFrom st.workingLines
            ((if (st.workingLines.length : Int) ≤
                  (e.line_end : Int) - 1 + translate st.lineShifts e.line_start
              then (st.workingLines.length : Int) - 1
              else (e.line_end : Int) - 1 + translate st.lineShifts e.line_start)
              + 1)) := by
  unfold stepEdit
  simp only []
  rw [if_neg (by omega), if_neg (by omega), if_neg (by omega),
    if_neg (by rw [List.getD_eq_getElem?_getD] at h5; simp [h5])]
  constructor
  · intro hcs
    rw [if_pos hcs]
  · intro hcs
    rw [if_neg (not_le.mpr hcs)]
    exact ⟨rfl, by simp [List.append_assoc]⟩

theorem C6_vanish_or_clamp_witness :
    (((MState.mk [['a'], ['b']] [⟨1, 3, -2⟩]).workingLines.length : Int) ≤
        ((4 : Nat) : Int) - 1 +
          translate (MState.mk [['a'], ['b']] [⟨1, 3, -2⟩]).lineShifts 4 →
      stepEdit [['a'], ['b'], ['c'], ['d']] (MState.mk [['a'], ['b']] [⟨1, 3, -2⟩])
          ⟨4, 4, ['d'], ['Z']⟩ =
        ((false, none, some (.vanished 4)), MState.mk [['a'], ['b']] [⟨1, 3, -2⟩])) ∧
    (((4 : Nat) : Int) - 1 +
        translate (MState.mk [['a'], ['b']] [⟨1, 3, -2⟩]).lineShifts 4 <
        ((MState.mk [['a'], ['b']] [⟨1, 3, -2⟩]).workingLines.length : Int) →
      (stepEdit [['a'], ['b'], ['c'], ['d']] (MState.mk [['a'], ['b']] [⟨1, 3, -2⟩])
          ⟨4, 4, ['d'], ['Z']⟩).1.1 = true ∧
      (stepEdit [['a'], ['b'], ['c'], ['d']] (MState.mk [['a'], ['b']] [⟨1, 3, -2⟩])
          ⟨4, 4, ['d'], ['Z']⟩).2.workingLines =
        jsSliceTo (MState.mk [['a'], ['b']] [⟨1, 3, -2⟩]).workingLines
            (((4 : Nat) : Int) - 1 +
              translate (MState.mk [['a'], ['b']] [⟨1, 3, -2⟩]).lineShifts 4) ++
          splitNl ['Z'] ++
          jsSliceFrom (MState.mk [['a'], ['b']] [⟨1, 3, -2⟩]).workingLines
            ((if ((MState.mk [['a'], ['b']] [⟨1, 3, -2⟩]).workingLines.length : Int) ≤
                  ((4 : Nat) : Int) - 1 +
                    translate (MState.mk [['a'], ['b']] [⟨1, 3, -2⟩]).lineShifts 4
              then ((MState.mk [['a'], ['b']] [⟨1, 3, -2⟩]).workingLines.length : Int) - 1
              else ((4 : Nat) : Int) - 1 +
                translate (MState.mk [['a'], ['b']] [⟨1, 3, -2⟩]).lineShifts 4)
              + 1)) :=
  C6_vanish_or_clamp [['a'], ['b'], ['c'], ['d']]
    (MState.mk [['a'], ['b']] [⟨1, 3, -2⟩]) ⟨4, 4, ['d'], ['Z']⟩
    (by decide) (by decide) (by decide) (by decide)

/-! ## Claim C8 -/

/-- C8: `replace_in_file` counts the occurrences of the pattern first; zero
occurrences fail with a no-match error and no write; more than one
occurrence with `multiple` unset fails with an error reporting the count
and no write; otherwise the global substitution is written and the reported
count is the occurrence count.  (The regex engine is modelled for literal
patterns.) -/
theorem C8_replace_branches (content pat target : List Char)
    (multiple : Bool) :
    (countOcc pat content = 0 →
      replaceInFile content pat target multiple = .error .noMatch) ∧
    (countOcc pat content > 1 → multiple = false →
      replaceInFile content pat target multiple =
        .error (.multiMatch (countOcc pat content))) ∧
    (countOcc pat content ≠ 0 →
      (multiple = true ∨ countOcc pat content = 1) →
      replaceInFile content pat target multiple =
        .ok (replaceG pat target content, countOcc pat content)) := by
  refine ⟨fun h0 => ?_, fun h1 h2 => ?_, fun h3 h4 => ?_⟩
  · unfold replaceInFile
    simp only []
    rw [if_pos h0]
  · unfold replaceInFile
    simp only []
    rw [if_neg (by omega), if_pos (by simp [h2]; omega)]
  · unfold replaceInFile
    simp only []
    rw [if_neg h3, if_neg (by rcases h4 with h | h <;> simp [h])]


theorem C8_replace_branches_witness :
    (countOcc "zz".toList "abcabc".toList = 0 →
      replaceInFile "abcabc".toList "zz".toList "X".toList true =
        .error .noMatch) ∧
    (countOcc "zz".toList "abcabc".toList > 1 → true = false →
      replaceInFile "abcabc".toList "zz".toList "X".toList true =
        .error (.multiMatch (countOcc "zz".toList "abcabc".toList))) ∧
    (countOcc "zz".toList "abcabc".toList ≠ 0 →
      (true = true ∨ countOcc "zz".toList "abcabc".toList = 1) →
      replaceInFile "abcabc".toList "zz".toList "X".toList true =
        .ok (replaceG "zz".toList "X".toList "abcabc".toList,
          countOcc "zz".toList "abcabc".toList)) :=
  C8_replace_branches "abcabc".toList "zz".toList "X".toList true

/-! ## Claim C9 -/

/-- Patterns made only of safe characters always translate. -/
theorem translateGlob_total (p : List Char)
    (hc : ∀ c ∈ p, isRegexSpecial c = false) :
    ∃ ts, translateGlob p = some ts := by
  induction p with
  | nil => exact ⟨[], rfl⟩
  | cons c p ih =>
    obtain ⟨ts, hts⟩ := ih (fun d hd => hc d (by simp [hd]))
    refine ⟨(if c = '*' then .starDot else if c = '?' ∨ c = '.' then .dot
      else .lit c) :: ts, ?_⟩
    unfold translateGlob
    rw [if_neg (by simp [hc c (by simp)]), hts]
    rfl

/-- On patterns free of regex metacharacters and of `.`, the translated
regex matches exactly as the documented glob contract does. -/
theorem rmatch_translateGlob (p : List Char) :
    ∀ (ts : List RTok) (s : List Char), translateGlob p = some ts →
      (∀ c ∈ p, isRegexSpecial c = false ∧ c ≠ '.') →
      (∀ c ∈ s, isLineTerm c = false) →
      rmatch ts s = matchGlobSpec p s := by
  induction p with
  | nil =>
    intro ts s ht _ _
    simp only [translateGlob, Option.some.injEq] at ht
    subst ht
    rfl
  | cons c p ih =>
    intro ts s ht hc hs
    have hcc := hc c (by simp)
    unfold translateGlob at ht
    rw [if_neg (by simp [hcc.1])] at ht
    rcases hts' : translateGlob p with _ | ts'
    · rw [hts'] at ht; cases ht
    · rw [hts'] at ht
      simp only [Option.map_some', Option.some.injEq] at ht
      subst ht
      have ihs : ∀ s', (∀ c ∈ s', isLineTerm c = false) →
          rmatch ts' s' = matchGlobSpec p s' :=
        fun s' hs' => ih ts' s' hts' (fun d hd => hc d (by simp [hd])) hs'
      by_cases hstar : c = '*'
      · subst hstar
        rw [if_pos rfl]
        show (List.range (s.length + 1)).any (fun k =>
            (s.take k).all (fun c => !isLineTerm c) && rmatch ts' (s.drop k)) =
          matchGlobSpec ('*' :: p) s
        have hpt : ∀ k, ((s.take k).all (fun c => !isLineTerm c) &&
            rmatch ts' (s.drop k)) = matchGlobSpec p (s.drop k) := by
          intro k
          have hall : (s.take k).all (fun c => !isLineTerm c) = true := by
            rw [List.all_eq_true]
            intro c hck
            simp [hs c (List.mem_of_mem_take hck)]
          rw [hall, Bool.true_and,
            ihs (s.drop k) (fun c hck => hs c (List.mem_of_mem_drop hck))]
        simp only [hpt, matchGlobSpec]
        simp
      · by_cases hq : c = '?'
        · subst hq
          rw [if_neg (by decide), if_pos (Or.inl rfl)]
          cases s with
          | nil => simp [rmatch, matchGlobSpec]
          | cons x s' =>
            show ((!isLineTerm x) && rmatch ts' s') =
              matchGlobSpec ('?' :: p) (x :: s')
            rw [show isLineTerm x = false from hs x (by simp), Bool.not_false,
              Bool.true_and,
              ihs s' (fun d hd => hs d (by simp [hd]))]
            simp [matchGlobSpec]
        · rw [if_neg hstar, if_neg (by simp [hq, hcc.2])]
          cases s with
          | nil => simp [rmatch, matchGlobSpec, hstar]
          | cons x s' =>
            show (decide (c = x) && rmatch ts' s') =
              matchGlobSpec (c :: p) (x :: s')
            rw [ihs s' (fun d hd => hs d (by simp [hd]))]
            simp [matchGlobSpec, hstar, hq]

/-- C9: the claim states `matchesPattern` returns true iff the whole
filename matches the documented contract in which every character other
than `*` and `?` matches only itself.  Counterexamples: the code does not
escape regex metacharacters, so in pattern `"a.b"` the dot keeps its regex
meaning and `"axb"` is accepted while the contract rejects it; the empty
pattern is falsy in JS and accepts every filename while the contract only
matches the empty name; and because a JS `.` never matches a line
terminator, pattern `"a?b"` rejects the filename `"a\nb"` while the
contract (`?` = exactly one character) accepts it. -/
theorem C9_counterexample :
    matchesPattern "axb".toList (some "a.b".toList) = some true ∧
      matchGlobSpec "a.b".toList "axb".toList = false ∧
      matchesPattern "x".toList (some "".toList) = some true ∧
      matchGlobSpec "".toList "x".toList = false ∧
      matchesPattern "a\nb".toList (some "a?b".toList) = some false ∧
      matchGlobSpec "a?b".toList "a\nb".toList = true := by
  decide

/-- C9 (amended): for every nonempty pattern containing neither a regex
metacharacter nor `.`, and every filename containing no line terminator,
`matchesPattern` returns true exactly when the whole filename matches the
documented glob contract (`*` any run, `?` one character, other characters
literally, anchored). -/
theorem C9_amended_glob_contract (p filename : List Char) (hne : p ≠ [])
    (hc : ∀ c ∈ p, isRegexSpecial c = false ∧ c ≠ '.')
    (hf : ∀ c ∈ filename, isLineTerm c = false) :
    matchesPattern filename (some p) = some (matchGlobSpec p filename) := by
  unfold matchesPattern
  simp only []
  rw [if_neg hne]
  obtain ⟨ts, hts⟩ := translateGlob_total p (fun c hcp => (hc c hcp).1)
  rw [hts]
  simp only [Option.map_some', Option.some.injEq]
  exact rmatch_translateGlob p ts filename hts hc hf

theorem C9_amended_glob_contract_witness :
    matchesPattern "hello_ts".toList (some "h*_t?".toList) =
      some (matchGlobSpec "h*_t?".toList "hello_ts".toList) :=
  C9_amended_glob_contract "h*_t?".toList "hello_ts".toList (by decide)
    (by decide) (by decide)

/-! ## Claim C5 -/

/-- The loop's base index influences only the `index` fields of the
results, never their content or the state. -/
theorem runEdits_index_invariant (orig : List (List Char)) :
    ∀ (es : List EditReq) (i i' : Nat) (st : MState),
      (runEdits orig i es st).1.map outcomeCore =
          (runEdits orig i' es st).1.map outcomeCore ∧
        (runEdits orig i es st).2 = (runEdits orig i' es st).2 := by
  intro es
  induction es with
  | nil => intro i i' st; exact ⟨rfl, rfl⟩
  | cons e rest ih =>
    intro i i' st
    simp only [runEdits, List.map_cons]
    obtain ⟨h1, h2⟩ := ih (i + 1) (i' + 1) (stepEdit orig st e).2
    refine ⟨?_, h2⟩
    rw [h1]
    rfl

/-- Erasing the element sitting right after a prefix. -/
theorem eraseIdx_append_cons {α : Type} :
    ∀ (l₁ : List α) (a : α) (l₂ : List α) (n : Nat), n = l₁.length →
      (l₁ ++ a :: l₂).eraseIdx n = l₁ ++ l₂ := by
  intro l₁
  induction l₁ with
  | nil =>
    intro a l₂ n hn
    subst hn
    rfl
  | cons x l₁ ih =>
    intro a l₂ n hn
    subst hn
    simp only [List.cons_append, List.length_cons, List.eraseIdx, List.append_eq]
    rw [ih a l₂ l₁.length rfl]

/-- C5: an edit that fails leaves the working buffer and the shift ledger
exactly as they were, and the batch with the failing edit removed produces
the same final content and, outcome for outcome, the same success flag,
line numbers, shift and error for every other edit. -/
theorem C5_failure_isolation (content : List Char)
    (edits l₁ l₂ : List EditReq) (e : EditReq)
    (rs : List EditResult) (f : List Char)
    (hs : sortEdits edits = l₁ ++ e :: l₂)
    (h : multireplace content edits = .done rs f)
    (hfail : (rs.get? l₁.length).map (fun r => r.success) = some false) :
    (stepEdit (splitNl content)
        (runEdits (splitNl content) 0 l₁ ⟨splitNl content, []⟩).2 e).2 =
      (runEdits (splitNl content) 0 l₁ ⟨splitNl content, []⟩).2 ∧
    ∃ rs', multireplace content (l₁ ++ l₂) = .done rs' f ∧
      rs'.map outcomeCore = (rs.eraseIdx l₁.length).map outcomeCore := by
  unfold multireplace at h
  simp only [] at h
  rcases hoc : overlapCheck (sortEdits edits) with _ | n
  swap
  · rw [hoc] at h; exact absurd h (by simp)
  rw [hoc] at h
  simp only [MultiResult.done.injEq] at h
  obtain ⟨hrs, hf⟩ := h
  -- decompose the run of the full sorted list
  set orig := splitNl content with horig
  set st₁ := (runEdits orig 0 l₁ ⟨orig, []⟩).2 with hst₁
  have hrun := runEdits_append orig l₁ (e :: l₂) 0 ⟨orig, []⟩
  rw [← hs] at hrun
  have hlen₁ : (runEdits orig 0 l₁ (⟨orig, []⟩ : MState)).1.length = l₁.length :=
    runEdits_length orig l₁ 0 ⟨orig, []⟩
  -- the result record of `e` in the full run
  have hre : rs.get? l₁.length = some
      ⟨0 + l₁.length, (stepEdit orig st₁ e).1.1, e.line_start, e.line_end,
        (stepEdit orig st₁ e).1.2.1, (stepEdit orig st₁ e).1.2.2⟩ := by
    rw [← hrs, hrun]
    simp only [runEdits]
    rw [List.get?_eq_getElem?, List.getElem?_append_right (by omega)]
    simp [hlen₁]
  have hefail : (stepEdit orig st₁ e).1.1 = false := by
    rw [hre] at hfail
    simpa using hfail
  have hstate : (stepEdit orig st₁ e).2 = st₁ :=
    stepEdit_fail_state orig st₁ e hefail
  refine ⟨hstate, ?_⟩
  -- sortedness of the reduced list and its overlap check
  have hsorted : List.Sorted editLE (l₁ ++ e :: l₂) := by
    rw [← hs]; exact List.sorted_insertionSort editLE edits
  have hsub : List.Sublist (l₁ ++ l₂) (l₁ ++ e :: l₂) :=
    (List.sublist_cons_self e l₂).append_left l₁
  have hsorted' : List.Sorted editLE (l₁ ++ l₂) := hsorted.sublist hsub
  have hsort_eq : sortEdits (l₁ ++ l₂) = l₁ ++ l₂ :=
    List.Sorted.insertionSort_eq hsorted'
  have hchain : (l₁ ++ e :: l₂).Chain' sepRel := by
    rw [← hs]
    exact chain'_of_overlapCheckGo_none _ (-1) hoc
  have hpw : (l₁ ++ e :: l₂).Pairwise sepRel :=
    pairwise_sepRel _ hsorted hchain
  have hchain' : (l₁ ++ l₂).Chain' sepRel := (hpw.sublist hsub).chain'
  have hoc' : overlapCheck (l₁ ++ l₂) = none := by
    refine overlapCheckGo_none_of_chain' _ _ hchain' ?_
    intro x hx
    have : (0 : Int) ≤ (x.line_start : Int) := Int.ofNat_nonneg _
    omega
  -- run the reduced batch
  have hrun' := runEdits_append orig l₁ l₂ 0 ⟨orig, []⟩
  -- in the full run, the tail after `e` starts from state st₁ again
  have hidx := runEdits_index_invariant orig l₂ (0 + l₁.length + 1)
    (0 + l₁.length) st₁
  refine ⟨(runEdits orig 0 (l₁ ++ l₂) ⟨orig, []⟩).1, ?_, ?_⟩
  · unfold multireplace
    simp only []
    rw [hsort_eq, hoc']
    simp only [MultiResult.done.injEq, true_and]
    rw [← hf, hrun, hrun']
    simp only [runEdits, hstate]
    exact congrArg (fun st => joinNl st.workingLines) hidx.2.symm
  · rw [← hrs, hrun, hrun']
    simp only [runEdits, hstate]
    rw [eraseIdx_append_cons _ _ _ _ hlen₁.symm]
    simp only [List.map_append]
    rw [hidx.1]

theorem C5_failure_isolation_witness :
    (stepEdit (splitNl "a\nb\nc".toList)
        (runEdits (splitNl "a\nb\nc".toList) 0 []
          ⟨splitNl "a\nb\nc".toList, []⟩).2 ⟨1, 1, "zz".toList, "X".toList⟩).2 =
      (runEdits (splitNl "a\nb\nc".toList) 0 []
        ⟨splitNl "a\nb\nc".toList, []⟩).2 ∧
    ∃ rs', multireplace "a\nb\nc".toList
        ([] ++ [⟨2, 2, "b".toList, "Y".toList⟩]) = .done rs' "a\nY\nc".toList ∧
      rs'.map outcomeCore =
        (([⟨0, false, 1, 1, none,
            some (.contentMismatch "zz".toList "a".toList)⟩,
          ⟨1, true, 2, 2, some 0, none⟩] : List EditResult).eraseIdx
            ([] : List EditReq).length).map outcomeCore :=
  C5_failure_isolation "a\nb\nc".toList
    [⟨1, 1, "zz".toList, "X".toList⟩, ⟨2, 2, "b".toList, "Y".toList⟩]
    [] [⟨2, 2, "b".toList, "Y".toList⟩] ⟨1, 1, "zz".toList, "X".toList⟩
    [⟨0, false, 1, 1, none, some (.contentMismatch "zz".toList "a".toList)⟩,
      ⟨1, true, 2, 2, some 0, none⟩]
    "a\nY\nc".toList (by decide) (by decide) (by decide)

/-! ## Claim C4 -/

theorem foldl_shift_all (ls : Nat) :
    ∀ (ledg : List ShiftRec) (a : Int), (∀ rec ∈ ledg, rec.start ≤ ls) →
      ledg.foldl (fun acc s => if s.start ≤ ls then acc + s.shift else acc) a =
        a + sumShifts ledg := by
  intro ledg
  induction ledg with
  | nil => intro a _; simp [sumShifts]
  | cons rec ledg ih =>
    intro a hall
    simp only [List.foldl_cons, if_pos (hall rec (by simp))]
    rw [ih (a + rec.shift) (fun x hx => hall x (by simp [hx]))]
    simp [sumShifts]
    omega

/-- When every ledger entry starts at or before the edit's start line, the
translation is the whole ledger's shift sum. -/
theorem translate_eq_sumShifts (ledg : List ShiftRec) (ls : Nat)
    (h : ∀ rec ∈ ledg, rec.start ≤ ls) :
    translate ledg ls = sumShifts ledg := by
  unfold translate
  rw [foldl_shift_all ls ledg 0 h]
  simp

/-- Length of the interleaving: original length minus the base plus the
shifts. -/
theorem interleaveFrom_length (orig : List (List Char)) :
    ∀ (es : List EditReq) (base : Nat),
      (∀ e ∈ es, base + 1 ≤ e.line_start ∧ e.line_start ≤ e.line_end ∧
        e.line_end ≤ orig.length) →
      es.Pairwise sepRel →
      base ≤ orig.length →
      ((interleaveFrom orig base es).length : Int) =
        (orig.length : Int) - base + (es.map shiftOf).sum := by
  intro es
  induction es with
  | nil =>
    intro base _ _ hbase
    simp only [interleaveFrom, List.length_drop, List.map_nil, List.sum_nil]
    omega
  | cons e es ih =>
    intro base hval hpw hbase
    obtain ⟨h1, h2, h3⟩ := hval e (by simp)
    have hih := ih e.line_end
      (fun f hf => ⟨by
          have := (List.pairwise_cons.mp hpw).1 f hf
          unfold sepRel at this
          omega,
        (hval f (by simp [hf])).2.1, (hval f (by simp [hf])).2.2⟩)
      (List.pairwise_cons.mp hpw).2 h3
    simp only [interleaveFrom, List.length_append, List.length_take,
      List.length_drop]
    push_cast
    rw [hih]
    simp only [List.map_cons, List.sum_cons]
    unfold shiftOf
    omega

/-- Every original line outside all edited ranges survives in the
interleaving at its shift-adjusted position. -/
theorem interleaveFrom_getElem? (orig : List (List Char)) :
    ∀ (es : List EditReq) (base j : Nat),
      (∀ e ∈ es, base + 1 ≤ e.line_start ∧ e.line_start ≤ e.line_end ∧
        e.line_end ≤ orig.length) →
      es.Pairwise sepRel →
      base ≤ j → j < orig.length →
      (∀ e ∈ es, ¬(e.line_start ≤ j + 1 ∧ j + 1 ≤ e.line_end)) →
      ∃ p : Nat, (p : Int) = (j : Int) - base +
          ((es.filter (fun e => e.line_end ≤ j)).map shiftOf).sum ∧
        (interleaveFrom orig base es)[p]? = orig[j]? := by
  intro es
  induction es with
  | nil =>
    intro base j _ _ hbj hjL _
    refine ⟨j - base, by simp; omega, ?_⟩
    simp only [interleaveFrom, List.getElem?_drop]
    congr 1
    omega
  | cons e es ih =>
    intro base j hval hpw hbj hjL hout
    obtain ⟨h1, h2, h3⟩ := hval e (by simp)
    have hnot := hout e (by simp)
    rcases Nat.lt_or_ge j (e.line_start - 1) with hcase | hcase
    · -- the line sits in the gap before `e`
      have hfilter : (e :: es).filter (fun f => f.line_end ≤ j) = [] := by
        rw [List.filter_eq_nil_iff]
        intro f hf
        rcases List.mem_cons.mp hf with hf | hf
        · subst hf; simp; omega
        · have hsep := (List.pairwise_cons.mp hpw).1 f hf
          have hvf := hval f (by simp [hf])
          unfold sepRel at hsep
          simp
          omega
      have hgaplen : ((orig.drop base).take (e.line_start - 1 - base)).length =
          e.line_start - 1 - base := by
        simp [List.length_take]
        omega
      refine ⟨j - base, by rw [hfilter]; simp; omega, ?_⟩
      simp only [interleaveFrom]
      rw [List.getElem?_append_left (by simp [List.length_take]; omega)]
      rw [List.getElem?_append_left (by rw [hgaplen]; omega)]
      rw [List.getElem?_take, if_pos (by omega), List.getElem?_drop]
      congr 1
      omega
    · -- the line sits after `e`, which must lie entirely before it
      have hje : e.line_end ≤ j := by omega
      obtain ⟨p', hp'1, hp'2⟩ := ih e.line_end j
        (fun f hf => ⟨by
            have := (List.pairwise_cons.mp hpw).1 f hf
            unfold sepRel at this
            omega,
          (hval f (by simp [hf])).2.1, (hval f (by simp [hf])).2.2⟩)
        (List.pairwise_cons.mp hpw).2 hje hjL
        (fun f hf => hout f (by simp [hf]))
      have hgaplen : ((orig.drop base).take (e.line_start - 1 - base)).length =
          e.line_start - 1 - base := by
        simp [List.length_take]
        omega
      refine ⟨(e.line_start - 1 - base) + (splitNl e.contents).length + p', ?_, ?_⟩
      · have hfilter : (e :: es).filter (fun f => f.line_end ≤ j) =
            e :: es.filter (fun f => f.line_end ≤ j) := by
          rw [List.filter_cons_of_pos (by simp; omega)]
        rw [hfilter]
        simp only [List.map_cons, List.sum_cons]
        rw [show shiftOf e = ((splitNl e.contents).length : Int) -
          ((e.line_end : Int) - (e.line_start : Int) + 1) from rfl]
        push_cast
        omega
      · simp only [interleaveFrom]
        rw [List.getElem?_append_right
          (by simp only [List.length_append, hgaplen]; omega)]
        rw [← hp'2]
        congr 1
        simp only [List.length_append, hgaplen]
        omega

/-- Applying one valid, in-bounds, content-matching edit to a working
buffer of the canonical form `P ++ orig.drop base` (with the whole ledger
lying at or before `base`) splices exactly the gap, the replacement lines
and the tail, and appends one ledger record. -/
theorem stepEdit_apply (orig : List (List Char)) (P : List (List Char))
    (base : Nat) (ledg : List ShiftRec) (e : EditReq)
    (h1 : base + 1 ≤ e.line_start) (h2 : e.line_start ≤ e.line_end)
    (h3 : e.line_end ≤ orig.length)
    (hcontent : orig.getD (e.line_start - 1) [] = e.line_start_contents)
    (hledg : ∀ rec ∈ ledg, rec.start ≤ base)
    (hP : (P.length : Int) = (base : Int) + sumShifts ledg) :
    stepEdit orig ⟨P ++ orig.drop base, ledg⟩ e =
      ((true, some (shiftOf e), none),
        ⟨P ++ (orig.drop base).take (e.line_start - 1 - base) ++
            splitNl e.contents ++ orig.drop e.line_end,
          ledg ++ [⟨e.line_start, e.line_end, shiftOf e⟩]⟩) := by
  have hadj : translate ledg e.line_start = sumShifts ledg :=
    translate_eq_sumShifts _ _ (fun rec hr => le_trans (hledg rec hr) (by omega))
  have hlen : ((P ++ orig.drop base : List (List Char)).length : Int) =
      (P.length : Int) + (orig.length : Int) - base := by
    simp only [List.length_append, List.length_drop]
    push_cast
    omega
  unfold stepEdit
  simp only []
  rw [if_neg (by omega), if_neg (by omega), if_neg (by omega),
    if_neg (by rw [List.getD_eq_getElem?_getD] at hcontent; simp [hcontent])]
  rw [hadj]
  rw [if_neg (by rw [hlen]; omega)]
  rw [if_neg (by rw [hlen]; omega)]
  have hslice1 : jsSliceTo (P ++ orig.drop base)
      ((e.line_start : Int) - 1 + sumShifts ledg) =
      P ++ (orig.drop base).take (e.line_start - 1 - base) := by
    unfold jsSliceTo
    rw [if_neg (by omega)]
    have htn : ((e.line_start : Int) - 1 + sumShifts ledg).toNat =
        P.length + (e.line_start - 1 - base) := by omega
    rw [htn, List.take_append_eq_append_take,
      List.take_of_length_le (by omega)]
    congr 2
    omega
  have hslice2 : jsSliceFrom (P ++ orig.drop base)
      ((e.line_end : Int) - 1 + sumShifts ledg + 1) =
      orig.drop e.line_end := by
    unfold jsSliceFrom
    rw [if_neg (by omega)]
    have htn : ((e.line_end : Int) - 1 + sumShifts ledg + 1).toNat =
        P.length + (e.line_end - base) := by omega
    rw [htn, List.drop_append_eq_append_drop,
      List.drop_of_length_le (by omega), List.drop_drop]
    simp only [List.nil_append]
    congr 1
    omega
  rw [hslice1, hslice2]
  unfold shiftOf
  simp only [MState.mk.injEq, Prod.mk.injEq, true_and, and_true]

/-- Running a sorted, pairwise separated, validated batch over a working
buffer of the canonical form applies every edit: all results succeed, the
final buffer is the interleaving, and the ledger collects one record per
edit in order. -/
theorem runEdits_applyAll (orig : List (List Char)) :
    ∀ (es : List EditReq) (i : Nat) (P : List (List Char)) (base : Nat)
      (ledg : List ShiftRec),
      (∀ e ∈ es, base + 1 ≤ e.line_start ∧ e.line_start ≤ e.line_end ∧
        e.line_end ≤ orig.length) →
      (∀ e ∈ es, orig.getD (e.line_start - 1) [] = e.line_start_contents) →
      es.Pairwise sepRel →
      (∀ rec ∈ ledg, rec.start ≤ base) →
      (P.length : Int) = (base : Int) + sumShifts ledg →
      base ≤ orig.length →
      (runEdits orig i es ⟨P ++ orig.drop base, ledg⟩).1.map
          (fun r => r.success) = es.map (fun _ => true) ∧
      (runEdits orig i es ⟨P ++ orig.drop base, ledg⟩).2.workingLines =
          P ++ interleaveFrom orig base es ∧
      (runEdits orig i es ⟨P ++ orig.drop base, ledg⟩).2.lineShifts =
          ledg ++ es.map (fun e =>
            (⟨e.line_start, e.line_end, shiftOf e⟩ : ShiftRec)) := by
  intro es
  induction es with
  | nil =>
    intro i P base ledg _ _ _ _ _ _
    refine ⟨rfl, ?_, by simp [runEdits]⟩
    simp [runEdits, interleaveFrom]
  | cons e es ih =>
    intro i P base ledg hval hcontent hpw hledg hP hbase
    obtain ⟨h1, h2, h3⟩ := hval e (by simp)
    have hstep := stepEdit_apply orig P base ledg e h1 h2 h3
      (hcontent e (by simp)) hledg hP
    have hgaplen : ((orig.drop base).take (e.line_start - 1 - base)).length =
        e.line_start - 1 - base := by
      simp [List.length_take]
      omega
    have hih := ih (i + 1)
      (P ++ (orig.drop base).take (e.line_start - 1 - base) ++
        splitNl e.contents)
      e.line_end (ledg ++ [⟨e.line_start, e.line_end, shiftOf e⟩])
      (fun f hf => ⟨by
          have := (List.pairwise_cons.mp hpw).1 f hf
          unfold sepRel at this
          omega,
        (hval f (by simp [hf])).2.1, (hval f (by simp [hf])).2.2⟩)
      (fun f hf => hcontent f (by simp [hf]))
      (List.pairwise_cons.mp hpw).2
      (by
        intro rec hrec
        rcases List.mem_append.mp hrec with hrec | hrec
        · exact le_trans (hledg rec hrec) (by omega)
        · simp at hrec
          subst hrec
          exact h2)
      (by
        simp only [List.length_append, hgaplen]
        rw [show sumShifts (ledg ++ [⟨e.line_start, e.line_end, shiftOf e⟩]) =
          sumShifts ledg + shiftOf e by simp [sumShifts]]
        rw [show shiftOf e = ((splitNl e.contents).length : Int) -
          ((e.line_end : Int) - (e.line_start : Int) + 1) from rfl]
        push_cast
        omega)
      h3
    simp only [runEdits, hstep]
    refine ⟨?_, ?_, ?_⟩
    · simp only [List.map_cons]
      rw [← hih.1]
    · rw [hih.2.1]
      simp only [interleaveFrom, List.append_assoc]
    · rw [hih.2.2]
      simp [List.append_assoc]

/-- C4: for a batch of in-bounds, well-formed, content-matching,
non-overlapping edits, every edit succeeds, the committed line count equals
the original length plus the sum of the per-edit shifts, and every original
line outside all edited ranges survives unchanged at its position adjusted
by the shifts of the edits preceding it. -/
theorem C4_shift_correctness (content : List Char) (edits : List EditReq)
    (hval : ∀ e ∈ edits, 1 ≤ e.line_start ∧ e.line_start ≤ e.line_end ∧
      e.line_end ≤ (splitNl content).length)
    (hcontent : ∀ e ∈ edits,
      (splitNl content).getD (e.line_start - 1) [] = e.line_start_contents)
    (hsep : overlapCheck (sortEdits edits) = none) :
    ∃ rs W, multireplace content edits = .done rs (joinNl W) ∧
      (∀ r ∈ rs, r.success = true) ∧
      (W.length : Int) = ((splitNl content).length : Int) + shiftSum edits ∧
      (∀ j : Nat, j < (splitNl content).length →
        (∀ e ∈ edits, ¬(e.line_start ≤ j + 1 ∧ j + 1 ≤ e.line_end)) →
        ∃ p : Nat, (p : Int) = (j : Int) + precedingShift edits j ∧
          W[p]? = (splitNl content)[j]?) := by
  have hperm : (sortEdits edits).Perm edits := List.perm_insertionSort _ _
  have hmem : ∀ e ∈ sortEdits edits, e ∈ edits :=
    fun e he => hperm.mem_iff.mp he
  have hvals : ∀ e ∈ sortEdits edits, 0 + 1 ≤ e.line_start ∧
      e.line_start ≤ e.line_end ∧
      e.line_end ≤ (splitNl content).length := by
    intro e he
    obtain ⟨a, b, c⟩ := hval e (hmem e he)
    exact ⟨by omega, b, c⟩
  have hconts : ∀ e ∈ sortEdits edits,
      (splitNl content).getD (e.line_start - 1) [] = e.line_start_contents :=
    fun e he => hcontent e (hmem e he)
  have hsorted : List.Sorted editLE (sortEdits edits) :=
    List.sorted_insertionSort editLE edits
  have hchain : (sortEdits edits).Chain' sepRel :=
    chain'_of_overlapCheckGo_none _ _ hsep
  have hpw : (sortEdits edits).Pairwise sepRel :=
    pairwise_sepRel _ hsorted hchain
  have hinit : (([] : List (List Char)) ++ (splitNl content).drop 0) =
      splitNl content := by simp
  have happ := runEdits_applyAll (splitNl content) (sortEdits edits) 0 [] 0 []
    hvals hconts hpw (by simp) (by simp [sumShifts]) (by omega)
  rw [hinit] at happ
  refine ⟨(runEdits (splitNl content) 0 (sortEdits edits)
      ⟨splitNl content, []⟩).1,
    interleaveFrom (splitNl content) 0 (sortEdits edits), ?_, ?_, ?_, ?_⟩
  · unfold multireplace
    simp only []
    rw [hsep]
    simp only [MultiResult.done.injEq, true_and]
    rw [happ.2.1]
    simp
  · intro r hr
    have hmapped : r.success ∈ (sortEdits edits).map (fun _ => true) := by
      rw [← happ.1]
      exact List.mem_map_of_mem (fun r => r.success) hr
    obtain ⟨_, _, hh⟩ := List.mem_map.mp hmapped
    exact hh.symm
  · have hlen := interleaveFrom_length (splitNl content) (sortEdits edits) 0
      hvals hpw (by omega)
    rw [hlen]
    have : ((sortEdits edits).map shiftOf).sum = shiftSum edits :=
      (hperm.map shiftOf).sum_eq
    rw [this]
    omega
  · intro j hj hout
    have houts : ∀ e ∈ sortEdits edits,
        ¬(e.line_start ≤ j + 1 ∧ j + 1 ≤ e.line_end) :=
      fun e he => hout e (hmem e he)
    obtain ⟨p, hp1, hp2⟩ := interleaveFrom_getElem? (splitNl content)
      (sortEdits edits) 0 j hvals hpw (by omega) hj houts
    refine ⟨p, ?_, hp2⟩
    rw [hp1]
    have : (((sortEdits edits).filter (fun e => e.line_end ≤ j)).map
        shiftOf).sum = precedingShift edits j :=
      ((hperm.filter (fun e => e.line_end ≤ j)).map shiftOf).sum_eq
    rw [this]
    omega

theorem C4_shift_correctness_witness :
    ∃ rs W, multireplace "a\nb\nc\nd\ne".toList
        [⟨2, 3, "b".toList, "X".toList⟩, ⟨5, 5, "e".toList, "Y\nZ".toList⟩] =
        .done rs (joinNl W) ∧
      (∀ r ∈ rs, r.success = true) ∧
      (W.length : Int) = ((splitNl "a\nb\nc\nd\ne".toList).length : Int) +
        shiftSum [⟨2, 3, "b".toList, "X".toList⟩,
          ⟨5, 5, "e".toList, "Y\nZ".toList⟩] ∧
      (∀ j : Nat, j < (splitNl "a\nb\nc\nd\ne".toList).length →
        (∀ e ∈ [(⟨2, 3, "b".toList, "X".toList⟩ : EditReq),
            ⟨5, 5, "e".toList, "Y\nZ".toList⟩],
          ¬(e.line_start ≤ j + 1 ∧ j + 1 ≤ e.line_end)) →
        ∃ p : Nat, (p : Int) = (j : Int) +
            precedingShift [⟨2, 3, "b".toList, "X".toList⟩,
              ⟨5, 5, "e".toList, "Y\nZ".toList⟩] j ∧
          W[p]? = (splitNl "a\nb\nc\nd\ne".toList)[j]?) :=
  C4_shift_correctness "a\nb\nc\nd\ne".toList
    [⟨2, 3, "b".toList, "X".toList⟩, ⟨5, 5, "e".toList, "Y\nZ".toList⟩]
    (by decide) (by decide) (by decide)

end McpFileEdit
